import Mathlib

/-!
Verification of the M/M/c queueing engine and capacity-search procedure of
SRM01 (`src/main.py`) against its natural-language specification.

The Python floats are modelled by exact rationals (`ℚ`); the spec's testable
properties are stated "exactly in real arithmetic", which the rational model
captures.  The one transcendental operation, `math.exp` inside
`getPorbWhenQueueTimeLargerThan`, is modelled by `Real.exp` over `ℝ`.

Python `raise ValueError` in the constructor is modelled by `Except QueueError`;
the spec names this failure `UnstableQueueError`, hence the constructor
`QueueError.unstableQueue`.
-/

open BigOperators

/-- The error raised by `MMcQueue.__init__` when `capacity * departure <= arrival`
(Python raises `ValueError("This Queue is unstable with the Input Parameters!!!")`;
the spec calls it `UnstableQueueError`). -/
inductive QueueError where
  | unstableQueue
deriving DecidableEq, Repr

/-- State of the accumulation loop in `MMcQueue.__init__` (src/main.py:81-88)
after `i` iterations: the triple `(powerTerm, factorTerm, preSum)`.
Iteration `i+1` performs `powerTerm *= arrival/departure`, `factorTerm /= (i+1)`,
`preSum += powerTerm * factorTerm`, starting from `(1, 1, 1)`. -/
def initLoop (arrival departure : ℚ) : ℕ → ℚ × ℚ × ℚ
  | 0 => (1, 1, 1)
  | i + 1 =>
    let t := initLoop arrival departure i
    let p := t.1 * (arrival / departure)
    let f := t.2.1 / ((i : ℚ) + 1)
    (p, f, t.2.2 + p * f)

/-- The `MMcQueue` object of src/main.py:61-93 with its attributes (all set in
`__init__`).  `capacity` is a nonnegative integer (server count). -/
structure MMcQueue where
  _arrival : ℚ
  _departure : ℚ
  _capacity : ℕ
  _rou : ℚ
  _finalTerm : ℚ
  _p0 : ℚ
  _pc : ℚ
  _probSum : ℚ
deriving DecidableEq, Repr

/-- The attribute computations of `MMcQueue.__init__` (src/main.py:75-93),
without the stability check: `_rou = arrival/departure/capacity`, the
accumulation loop, `finalTerm = powerTerm*factorTerm`, `preSum -= finalTerm`,
`_p0 = 1/(preSum + finalTerm/(1-rou))`, `_pc = finalTerm*p0`,
`_probSum = preSum*p0`. -/
def MMcQueue.build (arrival departure : ℚ) (capacity : ℕ) : MMcQueue :=
  let rou := arrival / departure / (capacity : ℚ)
  let t := initLoop arrival departure capacity
  let finalTerm := t.1 * t.2.1
  let preSum := t.2.2 - finalTerm
  let p0 := 1 / (preSum + finalTerm / (1 - rou))
  { _arrival := arrival
    _departure := departure
    _capacity := capacity
    _rou := rou
    _finalTerm := finalTerm
    _p0 := p0
    _pc := finalTerm * p0
    _probSum := preSum * p0 }

/-- `MMcQueue.__init__` (src/main.py:62-93): raises when
`capacity * departure <= arrival` (the stability guard), otherwise constructs
the object. -/
def MMcQueue.make (arrival departure : ℚ) (capacity : ℕ) : Except QueueError MMcQueue :=
  if (capacity : ℚ) * departure ≤ arrival then Except.error QueueError.unstableQueue
  else Except.ok (MMcQueue.build arrival departure capacity)

/-- Method `arrival` (src/main.py:95-96).  As in Python, the *method* is a
function; the attribute lookup `self.arrival` without a call yields this
function object, not the number. -/
def MMcQueue.arrival (q : MMcQueue) : Unit → ℚ := fun _ => q._arrival

/-- Method `departure` (src/main.py:98-99). -/
def MMcQueue.departure (q : MMcQueue) : Unit → ℚ := fun _ => q._departure

/-- Method `capacity` (src/main.py:101-102). -/
def MMcQueue.capacity (q : MMcQueue) : Unit → ℕ := fun _ => q._capacity

/-- `getPk` (src/main.py:104-117): probability of `k` packets in the system. -/
def MMcQueue.getPk (q : MMcQueue) (k : ℕ) : ℚ :=
  if k = 0 then q._p0
  else if k = q._capacity then q._pc
  else if k < q._capacity then
    q._p0 * (1 / (Nat.factorial k : ℚ)) * (q._arrival / q._departure) ^ k
  else q._finalTerm * q._rou ^ (k - q._capacity) * q._p0

/-- `getQueueProb` (src/main.py:119-125): Erlang-C probability `1 - probSum`. -/
def MMcQueue.getQueueProb (q : MMcQueue) : ℚ := 1 - q._probSum

/-- `getIdleProb` (src/main.py:127-132). -/
def MMcQueue.getIdleProb (q : MMcQueue) : ℚ := q._p0

/-- `getAvgPackets` (src/main.py:134-138): average number in system. -/
def MMcQueue.getAvgPackets (q : MMcQueue) : ℚ :=
  q._rou / (1 - q._rou) * q.getQueueProb + (q._capacity : ℚ) * q._rou

/-- `getAvgQueueTime` (src/main.py:140-144): average time in the queue. -/
def MMcQueue.getAvgQueueTime (q : MMcQueue) : ℚ :=
  q.getQueueProb / ((q._capacity : ℚ) * q._departure - q._arrival)

/-- `getAvgQueuePacket_Given` (src/main.py:146-151). -/
def MMcQueue.getAvgQueuePacket_Given (q : MMcQueue) : ℚ :=
  q._finalTerm * q._p0 / (1 - q._rou) / (1 - q._rou)

/-- `getAvgQueueTime_Given` (src/main.py:153-160). -/
def MMcQueue.getAvgQueueTime_Given (q : MMcQueue) : ℚ :=
  if q.getQueueProb = 0 then 0
  else q.getAvgQueuePacket_Given / (q.getQueueProb * q._arrival)

/-- `getAvgResponseTime` (src/main.py:162-166). -/
def MMcQueue.getAvgResponseTime (q : MMcQueue) : ℚ :=
  q.getAvgQueueTime + 1 / q._departure

/-- `getAvgPacketInSystem` (src/main.py:168-172). -/
def MMcQueue.getAvgPacketInSystem (q : MMcQueue) : ℚ :=
  q.getAvgResponseTime * q._arrival

/-- A Python runtime value as far as the `/` operator of `getAvgBusyServer`
is concerned: either a number or a bound method object. -/
inductive PyVal where
  | num : ℚ → PyVal
  | boundMethod : (Unit → ℚ) → PyVal

/-- Python runtime error raised by `/` on non-numeric operands. -/
inductive PyError where
  | typeError
deriving DecidableEq, Repr

/-- Python's `/` operator: defined on numbers, raises `TypeError` when either
operand is a bound method object. -/
def pyDiv : PyVal → PyVal → Except PyError PyVal
  | PyVal.num x, PyVal.num y => Except.ok (PyVal.num (x / y))
  | _, _ => Except.error PyError.typeError

/-- `getAvgBusyServer` (src/main.py:174-178): returns
`self.arrival / self.departure`.  `self.arrival` and `self.departure` are the
*bound methods* (not called), so the division is applied to two method
objects. -/
def MMcQueue.getAvgBusyServer (q : MMcQueue) : Except PyError PyVal :=
  pyDiv (PyVal.boundMethod q.arrival) (PyVal.boundMethod q.departure)

/-- `getPorbWhenQueueTimeLargerThan` (src/main.py:180-188):
`pc/(1-rou) * exp(-capacity*departure*(1-rou)*queueTime)`. -/
noncomputable def MMcQueue.getPorbWhenQueueTimeLargerThan (q : MMcQueue) (queueTime : ℝ) : ℝ :=
  ((q._pc : ℝ) / (1 - (q._rou : ℝ))) *
    Real.exp (-(q._capacity : ℝ) * (q._departure : ℝ) * (1 - (q._rou : ℝ)) * queueTime)

/-- The rational-valued components of the `queue_outputs` bundle
(src/main.py:191-238), in source order: `tempo_medio`, `tempo_medio_asterisco`,
`tamanho`, `tamanho_por_pdv`, `tamanho_asterisco`, `tamanho_asterisco_pdv`, and
the twelve-entry occupancy list `prob_qtd_pessoas_list`.  The remaining
components (`prob_pessoas_MED`, `prob_pessoas_MAX`, `prob_time_list`) involve
`math.exp` and are modelled separately over `ℝ`. -/
structure RatOutputs where
  tempo_medio : ℚ
  tempo_medio_asterisco : ℚ
  tamanho : ℚ
  tamanho_por_pdv : ℚ
  tamanho_asterisco : ℚ
  tamanho_asterisco_pdv : ℚ
  prob_qtd_pessoas_list : List ℚ
deriving DecidableEq, Repr

/-- `queue_outputs` (src/main.py:191-238), rational part.  The source divides
by the module-level variable `capacity`, which equals `Fila._capacity` at every
call site, so we use the queue's own capacity.  The residual occupancy bucket
is `1 -` the sum of `getPk 0 .. getPk 10` (src/main.py:228-229). -/
def queue_outputs (Fila : MMcQueue) : RatOutputs :=
  let tamanho := Fila.getAvgPackets
  let tamanho_asterisco := Fila.getAvgQueuePacket_Given
  { tempo_medio := Fila.getAvgQueueTime
    tempo_medio_asterisco := Fila.getAvgQueueTime_Given
    tamanho := tamanho
    tamanho_por_pdv := tamanho / (Fila._capacity : ℚ)
    tamanho_asterisco := tamanho_asterisco
    tamanho_asterisco_pdv := tamanho_asterisco / (Fila._capacity : ℚ)
    prob_qtd_pessoas_list :=
      [Fila.getPk 0, Fila.getPk 1, Fila.getPk 2, Fila.getPk 3, Fila.getPk 4,
       Fila.getPk 5, Fila.getPk 6, Fila.getPk 7, Fila.getPk 8, Fila.getPk 9,
       Fila.getPk 10,
       1 - (Fila.getPk 0 + Fila.getPk 1 + Fila.getPk 2 + Fila.getPk 3 +
            Fila.getPk 4 + Fila.getPk 5 + Fila.getPk 6 + Fila.getPk 7 +
            Fila.getPk 8 + Fila.getPk 9 + Fila.getPk 10)] }

/-- `prob_pessoas_MAX` of `queue_outputs` (src/main.py:196): the probability of
being served within the maximum wait time `SLA_TEMPO_MAX`. -/
noncomputable def prob_pessoas_MAX (Fila : MMcQueue) (SLA_TEMPO_MAX : ℝ) : ℝ :=
  1 - Fila.getPorbWhenQueueTimeLargerThan SLA_TEMPO_MAX

/-- Unnormalised weight `w_k = (arrival/departure)^k / k!` accumulated by the
`__init__` loop; analysis helper. -/
def wk (arrival departure : ℚ) (k : ℕ) : ℚ :=
  (arrival / departure) ^ k / (Nat.factorial k : ℚ)

/-- Partial sum `Σ_{k<c} w_k`; equals the source's `preSum` after the
`preSum -= finalTerm` line; analysis helper. -/
def wsum (arrival departure : ℚ) (c : ℕ) : ℚ :=
  ∑ k in Finset.range c, wk arrival departure k

/-- The average queue wait time at a given capacity (the `tempo_medio` metric
driving the mean-wait capacity search); analysis helper. -/
def waitTimeAt (arrival departure : ℚ) (c : ℕ) : ℚ :=
  (MMcQueue.build arrival departure c).getAvgQueueTime

/-- The `MUDANCA` flag values (src/main.py:413-417): the strings
`"INSTÁVEL"` / `"ESTÁVEL"`. -/
inductive Mudanca where
  | instavel
  | estavel
deriving DecidableEq, Repr

/-- The `MUDANCA` flag assignment (src/main.py:413-417):
`"INSTÁVEL"` iff `capacity != capacity_antiga`. -/
def mudanca (capacity_antiga capacity : ℕ) : Mudanca :=
  if capacity ≠ capacity_antiga then Mudanca.instavel else Mudanca.estavel

/-- The stabilization loop (src/main.py:368-369, repeated at 657-658, 902-903):
`while arrival_rate / (departure_rate * capacity) >= 1: capacity += 1`, with
explicit fuel.  For `capacity ≥ 1` and `departure > 0` the loop condition is
exactly `departure * capacity ≤ arrival`; at `capacity = 0` the source's
numpy-float division yields `+∞ ≥ 1`, i.e. also true, which
`departure * 0 = 0 ≤ arrival` matches whenever `arrival > 0`. -/
def stabilize (arrival departure : ℚ) : ℕ → ℕ → Option ℕ
  | 0, c => if departure * (c : ℚ) ≤ arrival then none else some c
  | fuel + 1, c =>
    if departure * (c : ℚ) ≤ arrival then stabilize arrival departure fuel (c + 1)
    else some c

/-- Fuel sufficient for `stabilize` to terminate from any start. -/
def stabilizeFuel (arrival departure : ℚ) : ℕ :=
  (⌈arrival / departure⌉).toNat + 1

/-- Result of one capacity-search branch for one row: the final `capacity`
appended to `CAPACITY` (src/main.py:744), the capacity at which the chosen
`resultado` bundle was computed, and the list of capacities at which `MMcQueue`
was instantiated during the search. -/
structure SearchResult where
  cap : ℕ
  chosenCap : ℕ
  visited : List ℕ
deriving DecidableEq, Repr

/-- State on exit of a decrease loop: final `capacity`, the capacity of the
current `resultado`, the current `metrica`, `metrica_2`, the capacity of
`resultado_2`, and the instantiation trace. -/
structure DecOut where
  cap : ℕ
  resCap : ℕ
  metrica : ℚ
  metrica2 : ℚ
  res2Cap : ℕ
  visited : List ℕ
deriving DecidableEq, Repr

/-- The `flag == 0` increase loop (src/main.py:667-675):
`while metrica > SLA_TEMPO_MEDIO: capacity += 1; fila = MMcQueue(...);
metrica = tempo_medio`.  Returns the capacity, the metric there, and the
instantiation trace. -/
def flag0Inc (arrival departure SLA_TEMPO_MEDIO : ℚ) :
    ℕ → ℕ → ℚ → List ℕ → Option (ℕ × ℚ × List ℕ)
  | 0, c, metrica, vis =>
    if SLA_TEMPO_MEDIO < metrica then none else some (c, metrica, vis)
  | fuel + 1, c, metrica, vis =>
    if SLA_TEMPO_MEDIO < metrica then
      match MMcQueue.make arrival departure (c + 1) with
      | Except.error _ => none
      | Except.ok q =>
          flag0Inc arrival departure SLA_TEMPO_MEDIO fuel (c + 1)
            (queue_outputs q).tempo_medio (vis ++ [c + 1])
    else some (c, metrica, vis)

/-- The `flag == 0` decrease loop (src/main.py:677-688):
`while metrica <= SLA: metrica_2 = metrica; resultado_2 = outputs(fila);
capacity -= 1; if arrival/(departure*capacity) >= 1: capacity += 1; break;
fila = MMcQueue(...); resultado = outputs(fila); metrica = resultado[0]`.
The guard condition is modelled as `departure * (c-1) ≤ arrival` (see
`stabilize` for the `c-1 = 0` case). -/
def flag0Dec (arrival departure SLA_TEMPO_MEDIO : ℚ) :
    ℕ → ℕ → ℚ → ℚ → ℕ → List ℕ → Option DecOut
  | 0, c, metrica, m2, res2, vis =>
    if metrica ≤ SLA_TEMPO_MEDIO then none else some ⟨c, c, metrica, m2, res2, vis⟩
  | fuel + 1, c, metrica, m2, res2, vis =>
    if metrica ≤ SLA_TEMPO_MEDIO then
      if departure * ((c - 1 : ℕ) : ℚ) ≤ arrival then
        some ⟨c, c, metrica, metrica, c, vis⟩
      else
        match MMcQueue.make arrival departure (c - 1) with
        | Except.error _ => none
        | Except.ok q =>
            flag0Dec arrival departure SLA_TEMPO_MEDIO fuel (c - 1)
              (queue_outputs q).tempo_medio metrica c (vis ++ [c - 1])
    else some ⟨c, c, metrica, m2, res2, vis⟩

/-- The full `flag == 0` mean-wait search for one row (src/main.py:657-696,744):
stabilization, initial model, increase loop, decrease loop, then the `DIFF`
comparison `|metrica - SLA| <= |metrica_2 - SLA|` selecting `resultado` or
`resultado_2`, and `CAPACITY.append(capacity)`. -/
def flag0Search (arrival departure SLA_TEMPO_MEDIO : ℚ) (fuel c0 : ℕ) :
    Option SearchResult :=
  match stabilize arrival departure fuel c0 with
  | none => none
  | some c1 =>
    match MMcQueue.make arrival departure c1 with
    | Except.error _ => none
    | Except.ok q =>
      match flag0Inc arrival departure SLA_TEMPO_MEDIO fuel c1
          (queue_outputs q).tempo_medio [c1] with
      | none => none
      | some (c2, m2, vis) =>
        match flag0Dec arrival departure SLA_TEMPO_MEDIO fuel c2 m2 m2 c2 vis with
        | none => none
        | some r =>
          let DIFF_1 := r.metrica - SLA_TEMPO_MEDIO
          let DIFF_2 := r.metrica2 - SLA_TEMPO_MEDIO
          some ⟨r.cap, if |DIFF_1| ≤ |DIFF_2| then r.resCap else r.res2Cap, r.visited⟩

section Flag2

open scoped Classical

/-- State on exit of the `flag == 2` decrease loop; the metric is real-valued
because the loop mixes the percentage metric (first iteration) with the
rational conditional wait time (later iterations). -/
structure DecOutR where
  cap : ℕ
  resCap : ℕ
  metrica : ℝ
  metrica2 : ℝ
  res2Cap : ℕ
  visited : List ℕ

/-- The `flag == 2` increase loop (src/main.py:915-921):
`while metrica < SLA_PER: capacity += 1; fila = MMcQueue(...);
PER = outputs[3]; metrica = PER` — driven by the percentage served within
`SLA_TEMPO_MAX`. -/
noncomputable def flag2Inc (arrival departure : ℚ) (SLA_PER SLA_TEMPO_MAX : ℝ) :
    ℕ → ℕ → ℝ → List ℕ → Option (ℕ × ℝ × List ℕ)
  | 0, c, metrica, vis =>
    if metrica < SLA_PER then none else some (c, metrica, vis)
  | fuel + 1, c, metrica, vis =>
    if metrica < SLA_PER then
      match MMcQueue.make arrival departure (c + 1) with
      | Except.error _ => none
      | Except.ok q =>
          flag2Inc arrival departure SLA_PER SLA_TEMPO_MAX fuel (c + 1)
            (prob_pessoas_MAX q SLA_TEMPO_MAX) (vis ++ [c + 1])
    else some (c, metrica, vis)

/-- The `flag == 2` decrease loop (src/main.py:923-935):
`while metrica >= SLA_PER: metrica_2 = metrica; resultado_2 = outputs(fila);
capacity -= 1; if arrival/(departure*capacity) >= 1: capacity += 1; break;
fila = MMcQueue(...); resultado = outputs(fila); metrica = resultado[1]`.
Note the loop refreshes `metrica` from `resultado[1]` — the conditional wait
time `tempo_medio_asterisco` — not from the percentage metric. -/
noncomputable def flag2Dec (arrival departure : ℚ) (SLA_PER : ℝ) :
    ℕ → ℕ → ℝ → ℝ → ℕ → List ℕ → Option DecOutR
  | 0, c, metrica, m2, res2, vis =>
    if SLA_PER ≤ metrica then none else some ⟨c, c, metrica, m2, res2, vis⟩
  | fuel + 1, c, metrica, m2, res2, vis =>
    if SLA_PER ≤ metrica then
      if departure * ((c - 1 : ℕ) : ℚ) ≤ arrival then
        some ⟨c, c, metrica, metrica, c, vis⟩
      else
        match MMcQueue.make arrival departure (c - 1) with
        | Except.error _ => none
        | Except.ok q =>
            flag2Dec arrival departure SLA_PER fuel (c - 1)
              (((queue_outputs q).tempo_medio_asterisco : ℚ) : ℝ) metrica c
              (vis ++ [c - 1])
    else some ⟨c, c, metrica, m2, res2, vis⟩

/-- The full `flag == 2` percentage-served search for one row
(src/main.py:902-943,992): stabilization, initial model, its percentage metric
`PER = outputs[3]`, increase loop, decrease loop, then the `DIFF` comparison —
which in this branch uses `SLA_TEMPO_MEDIO`, not `SLA_PER`
(src/main.py:937-938) — and `CAPACITY.append(capacity)`. -/
noncomputable def flag2Search (arrival departure : ℚ)
    (SLA_PER SLA_TEMPO_MEDIO SLA_TEMPO_MAX : ℝ) (fuel c0 : ℕ) :
    Option SearchResult :=
  match stabilize arrival departure fuel c0 with
  | none => none
  | some c1 =>
    match MMcQueue.make arrival departure c1 with
    | Except.error _ => none
    | Except.ok q =>
      match flag2Inc arrival departure SLA_PER SLA_TEMPO_MAX fuel c1
          (prob_pessoas_MAX q SLA_TEMPO_MAX) [c1] with
      | none => none
      | some (c2, m2, vis) =>
        match flag2Dec arrival departure SLA_PER fuel c2 m2 m2 c2 vis with
        | none => none
        | some r =>
          let DIFF_1 := r.metrica - SLA_TEMPO_MEDIO
          let DIFF_2 := r.metrica2 - SLA_TEMPO_MEDIO
          some ⟨r.cap, if |DIFF_1| ≤ |DIFF_2| then r.resCap else r.res2Cap, r.visited⟩

end Flag2

/-! ### Bridge lemmas: the `__init__` loop computes the factorial/power weights -/

theorem initLoop_fst (a d : ℚ) (c : ℕ) : (initLoop a d c).1 = (a / d) ^ c := by
  induction c with
  | zero => rfl
  | succ i ih => simp [initLoop, ih, pow_succ]

theorem initLoop_snd (a d : ℚ) (c : ℕ) :
    (initLoop a d c).2.1 = 1 / (Nat.factorial c : ℚ) := by
  induction c with
  | zero => norm_num [initLoop]
  | succ i ih =>
    have hF : ((Nat.factorial i : ℚ)) ≠ 0 := by
      exact_mod_cast (Nat.factorial_pos i).ne'
    have hI : ((i : ℚ) + 1) ≠ 0 := by positivity
    simp only [initLoop, ih, Nat.factorial_succ]
    push_cast
    field_simp
    ring

theorem initLoop_sum (a d : ℚ) (c : ℕ) :
    (initLoop a d c).2.2 = ∑ k in Finset.range (c + 1), wk a d k := by
  induction c with
  | zero => norm_num [initLoop, wk]
  | succ i ih =>
    have hF : ((Nat.factorial i : ℚ)) ≠ 0 := by
      exact_mod_cast (Nat.factorial_pos i).ne'
    have hI : ((i : ℚ) + 1) ≠ 0 := by positivity
    have hterm : (initLoop a d i).1 * (a / d) *
        ((initLoop a d i).2.1 / ((i : ℚ) + 1)) = wk a d (i + 1) := by
      rw [initLoop_fst, initLoop_snd, wk, Nat.factorial_succ]
      push_cast
      field_simp
      ring
    calc (initLoop a d (i + 1)).2.2
        = (initLoop a d i).2.2 + (initLoop a d i).1 * (a / d) *
            ((initLoop a d i).2.1 / ((i : ℚ) + 1)) := rfl
      _ = ∑ k in Finset.range (i + 1), wk a d k + wk a d (i + 1) := by
          rw [ih, hterm]
      _ = ∑ k in Finset.range (i + 2), wk a d k := (Finset.sum_range_succ _ _).symm

/-! ### Field values of a constructed queue -/

theorem build_arrival (a d : ℚ) (c : ℕ) : (MMcQueue.build a d c)._arrival = a := rfl

theorem build_departure (a d : ℚ) (c : ℕ) : (MMcQueue.build a d c)._departure = d := rfl

theorem build_capacity (a d : ℚ) (c : ℕ) : (MMcQueue.build a d c)._capacity = c := rfl

theorem build_rou (a d : ℚ) (c : ℕ) :
    (MMcQueue.build a d c)._rou = a / d / (c : ℚ) := rfl

theorem build_finalTerm (a d : ℚ) (c : ℕ) :
    (MMcQueue.build a d c)._finalTerm = wk a d c := by
  show (initLoop a d c).1 * (initLoop a d c).2.1 = wk a d c
  rw [initLoop_fst, initLoop_snd, wk]
  ring

theorem initLoop_preSum (a d : ℚ) (c : ℕ) :
    (initLoop a d c).2.2 - (initLoop a d c).1 * (initLoop a d c).2.1
      = wsum a d c := by
  rw [initLoop_sum, initLoop_fst, initLoop_snd, wsum, Finset.sum_range_succ, wk]
  ring

theorem build_p0 (a d : ℚ) (c : ℕ) :
    (MMcQueue.build a d c)._p0
      = 1 / (wsum a d c + wk a d c / (1 - a / d / (c : ℚ))) := by
  show 1 / ((initLoop a d c).2.2 - (initLoop a d c).1 * (initLoop a d c).2.1 +
      (initLoop a d c).1 * (initLoop a d c).2.1 / (1 - a / d / (c : ℚ))) = _
  rw [initLoop_preSum]
  have : (initLoop a d c).1 * (initLoop a d c).2.1 = wk a d c := build_finalTerm a d c
  rw [this]

theorem build_probSum (a d : ℚ) (c : ℕ) :
    (MMcQueue.build a d c)._probSum = wsum a d c * (MMcQueue.build a d c)._p0 := by
  have h : (MMcQueue.build a d c)._probSum
      = ((initLoop a d c).2.2 - (initLoop a d c).1 * (initLoop a d c).2.1) *
        (MMcQueue.build a d c)._p0 := rfl
  rw [h, initLoop_preSum]

theorem build_pc (a d : ℚ) (c : ℕ) :
    (MMcQueue.build a d c)._pc = wk a d c * (MMcQueue.build a d c)._p0 :=
  congrArg (· * (MMcQueue.build a d c)._p0) (build_finalTerm a d c)

/-! ### The constructor's stability guard -/

theorem make_eq_error_iff (a d : ℚ) (c : ℕ) :
    MMcQueue.make a d c = Except.error QueueError.unstableQueue ↔ (c : ℚ) * d ≤ a := by
  unfold MMcQueue.make
  split_ifs with h <;> simp [h]

theorem make_eq_ok_iff (a d : ℚ) (c : ℕ) (q : MMcQueue) :
    MMcQueue.make a d c = Except.ok q ↔ (a < (c : ℚ) * d ∧ q = MMcQueue.build a d c) := by
  unfold MMcQueue.make
  split_ifs with h
  · simp [not_lt.mpr h]
  · simp [not_le.mp h, eq_comm]

/-! ### Claim C1: the stability guard of the constructor -/

/-- C1: for every arrival rate λ > 0, service rate μ > 0 and positive integer
server count c, constructing the queue model fails with `UnstableQueueError`
exactly when c·μ ≤ λ, and succeeds whenever c·μ > λ. -/
theorem C1_stability_guard (lam mu : ℚ) (c : ℕ)
    (hl : 0 < lam) (hm : 0 < mu) (hc : 1 ≤ c) :
    (MMcQueue.make lam mu c = Except.error QueueError.unstableQueue ↔ (c : ℚ) * mu ≤ lam) ∧
    ((∃ q, MMcQueue.make lam mu c = Except.ok q) ↔ lam < (c : ℚ) * mu) := by
  refine ⟨make_eq_error_iff lam mu c, ?_⟩
  constructor
  · rintro ⟨q, hq⟩
    exact ((make_eq_ok_iff lam mu c q).mp hq).1
  · intro h
    exact ⟨MMcQueue.build lam mu c, (make_eq_ok_iff lam mu c _).mpr ⟨h, rfl⟩⟩

/-- Witness for C1 at the spec's concrete scenario λ=50, μ=40, c=1
(unstable: 1·40 ≤ 50). -/
theorem C1_stability_guard_witness :
    MMcQueue.make 50 40 1 = Except.error QueueError.unstableQueue :=
  ((C1_stability_guard 50 40 1 (by norm_num) (by norm_num) (le_refl 1)).1).mpr (by norm_num)

/-! ### Claim C2: probability mass conservation -/

theorem getPk_eq_of_lt (a d : ℚ) (c k : ℕ) (hk : k < c) :
    (MMcQueue.build a d c).getPk k = (MMcQueue.build a d c)._p0 * wk a d k := by
  unfold MMcQueue.getPk
  rcases Nat.eq_zero_or_pos k with hk0 | hk0
  · subst hk0
    rw [if_pos rfl, wk]
    norm_num
  · have hne : k ≠ (MMcQueue.build a d c)._capacity := by
      rw [build_capacity]; exact hk.ne
    rw [if_neg hk0.ne', if_neg hne, if_pos (by rw [build_capacity]; exact hk), wk,
      build_arrival, build_departure]
    ring

/-- C2: for every valid construction (λ > 0, μ > 0, c·μ > λ), the sum of the
occupancy probabilities `getPk k` for k = 0..c−1 plus the Erlang-C queue
probability `getQueueProb` equals 1 exactly. -/
theorem C2_probability_mass (lam mu : ℚ) (c : ℕ) (q : MMcQueue)
    (hl : 0 < lam) (hm : 0 < mu) (hq : MMcQueue.make lam mu c = Except.ok q) :
    (∑ k in Finset.range c, q.getPk k) + q.getQueueProb = 1 := by
  obtain ⟨hs, rfl⟩ := (make_eq_ok_iff lam mu c q).mp hq
  have hsum : ∑ k in Finset.range c, (MMcQueue.build lam mu c).getPk k
      = (MMcQueue.build lam mu c)._p0 * wsum lam mu c := by
    rw [wsum, Finset.mul_sum]
    exact Finset.sum_congr rfl fun k hk =>
      getPk_eq_of_lt lam mu c k (Finset.mem_range.mp hk)
  rw [hsum, MMcQueue.getQueueProb, build_probSum]
  ring

/-- Witness for C2 at λ=1/2, μ=1, c=2. -/
theorem C2_probability_mass_witness :
    (∑ k in Finset.range 2, (MMcQueue.build (1/2) 1 2).getPk k) +
      (MMcQueue.build (1/2) 1 2).getQueueProb = 1 :=
  C2_probability_mass (1/2) 1 2 (MMcQueue.build (1/2) 1 2)
    (by norm_num) (by norm_num)
    ((make_eq_ok_iff (1/2) 1 2 _).mpr ⟨by norm_num, rfl⟩)

/-! ### Claim C3: Little's law cross-check -/

/-- C3: for every valid construction, the average number in system computed
directly (`getAvgPackets`) equals the average computed via the response time
(`getAvgPacketInSystem = getAvgResponseTime · λ`), exactly. -/
theorem C3_littles_law (lam mu : ℚ) (c : ℕ) (q : MMcQueue)
    (hl : 0 < lam) (hm : 0 < mu) (hq : MMcQueue.make lam mu c = Except.ok q) :
    q.getAvgPackets = q.getAvgPacketInSystem ∧
    q.getAvgPacketInSystem = q.getAvgResponseTime * lam := by
  obtain ⟨hs, rfl⟩ := (make_eq_ok_iff lam mu c q).mp hq
  refine ⟨?_, rfl⟩
  have hc : (0 : ℚ) < (c : ℚ) := by
    rcases Nat.eq_zero_or_pos c with h0 | h0
    · exfalso; rw [h0] at hs; push_cast at hs; nlinarith
    · exact_mod_cast h0
  have hmc : lam < mu * (c : ℚ) := by nlinarith [hs]
  have hmu : mu ≠ 0 := hm.ne'
  have hc0 : (c : ℚ) ≠ 0 := hc.ne'
  have hcm : (c : ℚ) * mu - lam ≠ 0 := by nlinarith [hs]
  have hrou : 1 - lam / mu / (c : ℚ) ≠ 0 := by
    rw [div_div]
    have : lam / (mu * (c : ℚ)) < 1 := by
      rw [div_lt_one (by positivity)]
      nlinarith
    linarith
  have hmc0 : mu * (c : ℚ) ≠ 0 := by positivity
  have hcm2 : mu * (c : ℚ) - lam ≠ 0 := by
    have : (0 : ℚ) < mu * (c : ℚ) - lam := by nlinarith
    exact this.ne'
  have hsplit : 1 - lam / mu / (c : ℚ) = (mu * (c : ℚ) - lam) / (mu * (c : ℚ)) := by
    rw [div_div]
    field_simp
  have e1 : lam / mu / (c : ℚ) / (1 - lam / mu / (c : ℚ)) = lam / (mu * (c : ℚ) - lam) := by
    rw [hsplit]
    field_simp
  have e2 : (c : ℚ) * (lam / mu / (c : ℚ)) = lam / mu := by
    rw [div_div]
    field_simp
    ring
  unfold MMcQueue.getAvgPackets MMcQueue.getAvgPacketInSystem
    MMcQueue.getAvgResponseTime MMcQueue.getAvgQueueTime
  rw [build_rou, build_capacity, build_departure, build_arrival]
  generalize (MMcQueue.build lam mu c).getQueueProb = P
  rw [e1, e2]
  field_simp
  ring

/-- Witness for C3 at λ=1/2, μ=1, c=1. -/
theorem C3_littles_law_witness :
    (MMcQueue.build (1/2) 1 1).getAvgPackets
      = (MMcQueue.build (1/2) 1 1).getAvgPacketInSystem :=
  (C3_littles_law (1/2) 1 1 (MMcQueue.build (1/2) 1 1)
    (by norm_num) (by norm_num)
    ((make_eq_ok_iff (1/2) 1 1 _).mpr ⟨by norm_num, rfl⟩)).1

/-! ### Claim C10: `getAvgBusyServer` divides two bound methods -/

/-- C10: for every constructed queue, `getAvgBusyServer` fails with a
`TypeError` and never returns a number: it divides the bound method objects
`self.arrival` and `self.departure` instead of calling them. -/
theorem C10_getAvgBusyServer_type_error (q : MMcQueue) :
    q.getAvgBusyServer = Except.error PyError.typeError ∧
    ∀ v, q.getAvgBusyServer ≠ Except.ok v := by
  refine ⟨rfl, ?_⟩
  intro v h
  simp only [MMcQueue.getAvgBusyServer, pyDiv] at h
  exact Except.noConfusion h

/-! ### Positivity facts about the weight series -/

theorem wk_pos (lam mu : ℚ) (hl : 0 < lam) (hm : 0 < mu) (k : ℕ) :
    0 < wk lam mu k := by
  rw [wk]
  have h1 : (0 : ℚ) < lam / mu := by positivity
  have h2 : (0 : ℚ) < (Nat.factorial k : ℚ) := by
    exact_mod_cast Nat.factorial_pos k
  positivity

theorem wsum_succ (lam mu : ℚ) (c : ℕ) :
    wsum lam mu (c + 1) = wsum lam mu c + wk lam mu c :=
  Finset.sum_range_succ _ _

theorem wsum_pos (lam mu : ℚ) (hl : 0 < lam) (hm : 0 < mu) (c : ℕ) (hc : 0 < c) :
    0 < wsum lam mu c :=
  Finset.sum_pos (fun k _ => wk_pos lam mu hl hm k)
    (Finset.nonempty_range_iff.mpr hc.ne')

theorem cap_pos_of_stable (lam mu : ℚ) (c : ℕ) (hl : 0 < lam)
    (hs : lam < mu * (c : ℚ)) : 0 < c := by
  rcases Nat.eq_zero_or_pos c with h0 | h0
  · exfalso
    rw [h0] at hs
    push_cast at hs
    nlinarith
  · exact h0

theorem wk_succ_mul (lam mu : ℚ) (hm : 0 < mu) (c : ℕ) :
    wk lam mu (c + 1) * ((c : ℚ) + 1) = wk lam mu c * (lam / mu) := by
  have hF : ((Nat.factorial c : ℚ)) ≠ 0 := by
    exact_mod_cast (Nat.factorial_pos c).ne'
  have hC : ((c : ℚ) + 1) ≠ 0 := by positivity
  rw [wk, wk, pow_succ, Nat.factorial_succ]
  push_cast
  field_simp
  ring

/-- Key inequality behind the monotonicity of the mean wait time:
`Σ_{k<c} w_k · (λ/μ) = Σ_{1≤j≤c} j·w_j ≤ c · Σ_{j≤c} w_j`. -/
theorem wsum_mul_ratio_le (lam mu : ℚ) (hl : 0 < lam) (hm : 0 < mu) (c : ℕ) :
    wsum lam mu c * (lam / mu) ≤ (c : ℚ) * (wsum lam mu c + wk lam mu c) := by
  have hstep : wsum lam mu c * (lam / mu)
      = ∑ j in Finset.range (c + 1), (j : ℚ) * wk lam mu j := by
    rw [wsum, Finset.sum_mul, Finset.sum_range_succ']
    push_cast
    simp only [Nat.cast_zero, zero_mul, add_zero]
    refine (Finset.sum_congr rfl fun k _ => ?_).symm
    rw [← wk_succ_mul lam mu hm k]
    ring
  rw [hstep, ← wsum_succ, wsum, Finset.mul_sum]
  refine Finset.sum_le_sum fun j hj => ?_
  have hjc : (j : ℚ) ≤ (c : ℚ) := by
    exact_mod_cast Nat.lt_succ_iff.mp (Finset.mem_range.mp hj)
  exact mul_le_mul_of_nonneg_right hjc (wk_pos lam mu hl hm j).le

theorem wsum_mul_le (lam mu : ℚ) (hl : 0 < lam) (hm : 0 < mu) (c : ℕ) :
    wsum lam mu c * lam ≤ (c : ℚ) * (wsum lam mu c + wk lam mu c) * mu := by
  have h := wsum_mul_ratio_le lam mu hl hm c
  rw [← mul_div_assoc, div_le_iff hm] at h
  linarith

/-! ### Closed form of the Erlang-C probability and the mean wait time -/

theorem p0_formula (lam mu : ℚ) (c : ℕ) (hl : 0 < lam) (hm : 0 < mu)
    (hs : lam < mu * (c : ℚ)) :
    (MMcQueue.build lam mu c)._p0
      = (mu * (c : ℚ) - lam) /
          ((mu * (c : ℚ) - lam) * wsum lam mu c + wk lam mu c * (c : ℚ) * mu) := by
  have hcn : 0 < c := cap_pos_of_stable lam mu c hl hs
  have hc : (0 : ℚ) < (c : ℚ) := by exact_mod_cast hcn
  have hG : (0 : ℚ) < mu * (c : ℚ) - lam := by linarith
  have hS : 0 < wsum lam mu c := wsum_pos lam mu hl hm c hcn
  have hW : 0 < wk lam mu c := wk_pos lam mu hl hm c
  have hD : (0 : ℚ) < (mu * (c : ℚ) - lam) * wsum lam mu c + wk lam mu c * (c : ℚ) * mu := by
    have h1 : (0 : ℚ) < (mu * (c : ℚ) - lam) * wsum lam mu c := mul_pos hG hS
    have h2 : (0 : ℚ) < wk lam mu c * (c : ℚ) * mu := by positivity
    linarith
  have hsplit : 1 - lam / mu / (c : ℚ) = (mu * (c : ℚ) - lam) / (mu * (c : ℚ)) := by
    rw [div_div]
    field_simp
  rw [build_p0, hsplit, div_div_eq_mul_div]
  rw [eq_div_iff hD.ne', one_div, inv_mul_eq_div, div_eq_iff]
  · field_simp
    ring
  · have hpos : (0 : ℚ) < wsum lam mu c + wk lam mu c * (mu * (c : ℚ)) / (mu * (c : ℚ) - lam) := by
      have : (0 : ℚ) < wk lam mu c * (mu * (c : ℚ)) / (mu * (c : ℚ) - lam) := by positivity
      linarith
    exact hpos.ne'

theorem queueProb_formula (lam mu : ℚ) (c : ℕ) (hl : 0 < lam) (hm : 0 < mu)
    (hs : lam < mu * (c : ℚ)) :
    (MMcQueue.build lam mu c).getQueueProb
      = wk lam mu c * (c : ℚ) * mu /
          ((mu * (c : ℚ) - lam) * wsum lam mu c + wk lam mu c * (c : ℚ) * mu) := by
  have hcn : 0 < c := cap_pos_of_stable lam mu c hl hs
  have hc : (0 : ℚ) < (c : ℚ) := by exact_mod_cast hcn
  have hG : (0 : ℚ) < mu * (c : ℚ) - lam := by linarith
  have hS : 0 < wsum lam mu c := wsum_pos lam mu hl hm c hcn
  have hW : 0 < wk lam mu c := wk_pos lam mu hl hm c
  have hD : (0 : ℚ) < (mu * (c : ℚ) - lam) * wsum lam mu c + wk lam mu c * (c : ℚ) * mu := by
    have h1 : (0 : ℚ) < (mu * (c : ℚ) - lam) * wsum lam mu c := mul_pos hG hS
    have h2 : (0 : ℚ) < wk lam mu c * (c : ℚ) * mu := by positivity
    linarith
  rw [MMcQueue.getQueueProb, build_probSum, p0_formula lam mu c hl hm hs]
  field_simp
  ring

theorem waitTime_inv (lam mu : ℚ) (c : ℕ) (hl : 0 < lam) (hm : 0 < mu)
    (hs : lam < mu * (c : ℚ)) :
    waitTimeAt lam mu c
      = 1 / ((mu * (c : ℚ) - lam) +
          (mu * (c : ℚ) - lam) ^ 2 *
            (wsum lam mu c / (wk lam mu c * (c : ℚ) * mu))) := by
  have hcn : 0 < c := cap_pos_of_stable lam mu c hl hs
  have hc : (0 : ℚ) < (c : ℚ) := by exact_mod_cast hcn
  have hG : (0 : ℚ) < mu * (c : ℚ) - lam := by linarith
  have hS : 0 < wsum lam mu c := wsum_pos lam mu hl hm c hcn
  have hW : 0 < wk lam mu c := wk_pos lam mu hl hm c
  have hD : (0 : ℚ) < (mu * (c : ℚ) - lam) * wsum lam mu c + wk lam mu c * (c : ℚ) * mu := by
    have h1 : (0 : ℚ) < (mu * (c : ℚ) - lam) * wsum lam mu c := mul_pos hG hS
    have h2 : (0 : ℚ) < wk lam mu c * (c : ℚ) * mu := by positivity
    linarith
  have hG' : ((c : ℚ) * mu - lam) = (mu * (c : ℚ) - lam) := by ring
  unfold waitTimeAt MMcQueue.getAvgQueueTime
  rw [build_capacity, build_departure, build_arrival,
    queueProb_formula lam mu c hl hm hs, hG']
  have hWc : (0 : ℚ) < wk lam mu c * (c : ℚ) * mu := by positivity
  rw [div_div]
  rw [div_eq_div_iff (by positivity) ?hden]
  case hden =>
    have hX : (0 : ℚ) < wsum lam mu c / (wk lam mu c * (c : ℚ) * mu) := by positivity
    nlinarith [sq_nonneg (mu * (c : ℚ) - lam)]
  field_simp
  ring

/-! ### Monotonicity of the mean wait time in the capacity -/

theorem waitTime_succ_le (lam mu : ℚ) (c : ℕ) (hl : 0 < lam) (hm : 0 < mu)
    (hs : lam < mu * (c : ℚ)) :
    waitTimeAt lam mu (c + 1) ≤ waitTimeAt lam mu c := by
  have hcn : 0 < c := cap_pos_of_stable lam mu c hl hs
  have hc : (0 : ℚ) < (c : ℚ) := by exact_mod_cast hcn
  have hG : (0 : ℚ) < mu * (c : ℚ) - lam := by linarith
  have hS : 0 < wsum lam mu c := wsum_pos lam mu hl hm c hcn
  have hW : 0 < wk lam mu c := wk_pos lam mu hl hm c
  have hW2 : 0 < wk lam mu (c + 1) := wk_pos lam mu hl hm (c + 1)
  have hs2 : lam < mu * ((c + 1 : ℕ) : ℚ) := by push_cast; nlinarith
  rw [waitTime_inv lam mu c hl hm hs, waitTime_inv lam mu (c + 1) hl hm hs2]
  have hX1 : (0 : ℚ) < wsum lam mu c / (wk lam mu c * (c : ℚ) * mu) := by positivity
  apply one_div_le_one_div_of_le
  · nlinarith [sq_nonneg (mu * (c : ℚ) - lam)]
  · have hG12 : mu * (c : ℚ) - lam ≤ mu * ((c + 1 : ℕ) : ℚ) - lam := by
      push_cast; nlinarith
    have hX : wsum lam mu c / (wk lam mu c * (c : ℚ) * mu)
        ≤ wsum lam mu (c + 1) / (wk lam mu (c + 1) * ((c + 1 : ℕ) : ℚ) * mu) := by
      have hd1 : (0 : ℚ) < wk lam mu c * (c : ℚ) * mu := by positivity
      have hd2 : (0 : ℚ) < wk lam mu (c + 1) * ((c + 1 : ℕ) : ℚ) * mu := by
        have : (0 : ℚ) < ((c + 1 : ℕ) : ℚ) := by push_cast; positivity
        positivity
      rw [div_le_div_iff hd1 hd2]
      have hw : wk lam mu (c + 1) * ((c : ℚ) + 1) = wk lam mu c * (lam / mu) :=
        wk_succ_mul lam mu hm c
      have hkey := wsum_mul_le lam mu hl hm c
      have hcast : ((c + 1 : ℕ) : ℚ) = (c : ℚ) + 1 := by push_cast; ring
      rw [hcast, wsum_succ]
      calc wsum lam mu c * (wk lam mu (c + 1) * ((c : ℚ) + 1) * mu)
          = wsum lam mu c * (wk lam mu c * (lam / mu) * mu) := by rw [hw]
        _ = wsum lam mu c * lam * wk lam mu c := by
            field_simp
            ring
        _ ≤ (c : ℚ) * (wsum lam mu c + wk lam mu c) * mu * wk lam mu c :=
            mul_le_mul_of_nonneg_right hkey hW.le
        _ = (wsum lam mu c + wk lam mu c) * (wk lam mu c * (c : ℚ) * mu) := by ring
    have hsq : (mu * (c : ℚ) - lam) ^ 2 ≤ (mu * ((c + 1 : ℕ) : ℚ) - lam) ^ 2 :=
      pow_le_pow_left hG.le hG12 2
    have hprod : (mu * (c : ℚ) - lam) ^ 2 *
          (wsum lam mu c / (wk lam mu c * (c : ℚ) * mu))
        ≤ (mu * ((c + 1 : ℕ) : ℚ) - lam) ^ 2 *
          (wsum lam mu (c + 1) / (wk lam mu (c + 1) * ((c + 1 : ℕ) : ℚ) * mu)) :=
      mul_le_mul hsq hX hX1.le (by positivity)
    linarith

/-- Non-increase of the mean wait time over any capacity range. -/
theorem waitTime_antitone (lam mu : ℚ) (c1 c2 : ℕ) (hl : 0 < lam) (hm : 0 < mu)
    (hs : lam < mu * (c1 : ℚ)) (hcc : c1 ≤ c2) :
    waitTimeAt lam mu c2 ≤ waitTimeAt lam mu c1 := by
  induction c2, hcc using Nat.le_induction with
  | base => exact le_refl _
  | succ n hn ih =>
    have hsn : lam < mu * (n : ℚ) := by
      have : (c1 : ℚ) ≤ (n : ℚ) := by exact_mod_cast hn
      nlinarith
    exact le_trans (waitTime_succ_le lam mu n hl hm hsn) ih

/-! ### Claim C4: monotonicity in capacity -/

/-- C4: for fixed λ > 0 and μ > 0 and any two valid capacities c1 < c2 (both
stable), the average queue wait time `getAvgQueueTime` at c2 is at most its
value at c1. -/
theorem C4_wait_monotone (lam mu : ℚ) (c1 c2 : ℕ) (q1 q2 : MMcQueue)
    (hl : 0 < lam) (hm : 0 < mu) (hcc : c1 < c2)
    (h1 : MMcQueue.make lam mu c1 = Except.ok q1)
    (h2 : MMcQueue.make lam mu c2 = Except.ok q2) :
    q2.getAvgQueueTime ≤ q1.getAvgQueueTime := by
  obtain ⟨hs1, rfl⟩ := (make_eq_ok_iff lam mu c1 q1).mp h1
  obtain ⟨hs2, rfl⟩ := (make_eq_ok_iff lam mu c2 q2).mp h2
  exact waitTime_antitone lam mu c1 c2 hl hm (by nlinarith) hcc.le

/-- Witness for C4 at λ=1/2, μ=1, c1=1, c2=2. -/
theorem C4_wait_monotone_witness :
    (MMcQueue.build (1/2) 1 2).getAvgQueueTime
      ≤ (MMcQueue.build (1/2) 1 1).getAvgQueueTime :=
  C4_wait_monotone (1/2) 1 1 2 (MMcQueue.build (1/2) 1 1) (MMcQueue.build (1/2) 1 2)
    (by norm_num) (by norm_num) (by norm_num)
    ((make_eq_ok_iff (1/2) 1 1 _).mpr ⟨by norm_num, rfl⟩)
    ((make_eq_ok_iff (1/2) 1 2 _).mpr ⟨by norm_num, rfl⟩)

/-! ### The stabilization loop -/

theorem stabilize_stable (lam mu : ℚ) :
    ∀ fuel c c', stabilize lam mu fuel c = some c' → ¬(mu * (c' : ℚ) ≤ lam) := by
  intro fuel
  induction fuel with
  | zero =>
    intro c c' h
    by_cases hc : mu * (c : ℚ) ≤ lam
    · simp [stabilize, hc] at h
    · simp [stabilize, hc] at h
      subst h
      exact hc
  | succ fuel ih =>
    intro c c' h
    by_cases hc : mu * (c : ℚ) ≤ lam
    · simp only [stabilize, if_pos hc] at h
      exact ih (c + 1) c' h
    · simp [stabilize, hc] at h
      subst h
      exact hc

theorem stabilize_ge (lam mu : ℚ) :
    ∀ fuel c c', stabilize lam mu fuel c = some c' → c ≤ c' := by
  intro fuel
  induction fuel with
  | zero =>
    intro c c' h
    by_cases hc : mu * (c : ℚ) ≤ lam
    · simp [stabilize, hc] at h
    · simp [stabilize, hc] at h
      omega
  | succ fuel ih =>
    intro c c' h
    by_cases hc : mu * (c : ℚ) ≤ lam
    · simp only [stabilize, if_pos hc] at h
      have := ih (c + 1) c' h
      omega
    · simp [stabilize, hc] at h
      omega

theorem stabilize_changed (lam mu : ℚ) :
    ∀ fuel c c', stabilize lam mu fuel c = some c' →
      (c' ≠ c ↔ mu * (c : ℚ) ≤ lam) := by
  intro fuel c c' h
  by_cases hc : mu * (c : ℚ) ≤ lam
  · cases fuel with
    | zero => simp [stabilize, hc] at h
    | succ fuel =>
      simp only [stabilize, if_pos hc] at h
      have := stabilize_ge lam mu fuel (c + 1) c' h
      constructor
      · intro _; exact hc
      · intro _; omega
  · have hcc : c' = c := by
      cases fuel with
      | zero => simp [stabilize, hc] at h; omega
      | succ fuel => simp [stabilize, hc] at h; omega
    subst hcc
    constructor
    · intro hne; exact absurd rfl hne
    · intro hcond; exact absurd hcond hc

theorem stabilize_total (lam mu : ℚ) :
    ∀ (fuel c : ℕ), lam < mu * ((c : ℚ) + (fuel : ℚ)) →
      ∃ c', stabilize lam mu fuel c = some c' := by
  intro fuel
  induction fuel with
  | zero =>
    intro c h
    push_cast at h
    have hc : ¬(mu * (c : ℚ) ≤ lam) := by push_cast; linarith
    exact ⟨c, by simp [stabilize, hc]⟩
  | succ fuel ih =>
    intro c h
    by_cases hc : mu * (c : ℚ) ≤ lam
    · have h' : lam < mu * (((c + 1 : ℕ) : ℚ) + (fuel : ℚ)) := by
        push_cast at h ⊢
        linarith
      obtain ⟨c', hc'⟩ := ih (c + 1) h'
      exact ⟨c', by simp only [stabilize, if_pos hc]; exact hc'⟩
    · exact ⟨c, by simp [stabilize, hc]⟩

theorem stabilizeFuel_enough (lam mu : ℚ) (c0 : ℕ) (hl : 0 < lam) (hm : 0 < mu) :
    lam < mu * ((c0 : ℚ) + ((stabilizeFuel lam mu : ℕ) : ℚ)) := by
  have hrat : (0 : ℚ) < lam / mu := by positivity
  have hceil : (0 : ℤ) ≤ ⌈lam / mu⌉ := Int.ceil_nonneg hrat.le
  have hcast : (((⌈lam / mu⌉).toNat : ℕ) : ℚ) = ((⌈lam / mu⌉ : ℤ) : ℚ) := by
    exact_mod_cast congrArg (fun z : ℤ => (z : ℚ)) (Int.toNat_of_nonneg hceil)
  have hge : lam / mu ≤ (((⌈lam / mu⌉).toNat : ℕ) : ℚ) := by
    rw [hcast]
    exact_mod_cast Int.le_ceil (lam / mu)
  have hc0 : (0 : ℚ) ≤ (c0 : ℚ) := by positivity
  have hfuel : ((stabilizeFuel lam mu : ℕ) : ℚ)
      = (((⌈lam / mu⌉).toNat : ℕ) : ℚ) + 1 := by
    rw [stabilizeFuel]
    push_cast
    ring
  rw [hfuel]
  have hlam : lam = mu * (lam / mu) := by field_simp
  nlinarith [mul_le_mul_of_nonneg_left hge hm.le]

theorem stabilize_of_stable (lam mu : ℚ) (c : ℕ) (h : ¬(mu * (c : ℚ) ≤ lam)) :
    ∀ fuel, stabilize lam mu fuel c = some c := by
  intro fuel
  cases fuel <;> simp [stabilize, h]

/-! ### Claim C8: the stabilization phase -/

/-- C8: with sufficient fuel the stabilization loop always terminates (it
never fails); its result is stable and at least the starting capacity; the
result differs from the start exactly when the start was unstable; and the
`MUDANCA` flag reports `INSTÁVEL` exactly in that case. -/
theorem C8_stabilization (lam mu : ℚ) (c0 : ℕ) (hl : 0 < lam) (hm : 0 < mu) :
    (∃ c1, stabilize lam mu (stabilizeFuel lam mu) c0 = some c1) ∧
    ∀ c1, stabilize lam mu (stabilizeFuel lam mu) c0 = some c1 →
      lam < mu * (c1 : ℚ) ∧ c0 ≤ c1 ∧
      (c1 ≠ c0 ↔ mu * (c0 : ℚ) ≤ lam) ∧
      (mudanca c0 c1 = Mudanca.instavel ↔ mu * (c0 : ℚ) ≤ lam) := by
  constructor
  · exact stabilize_total lam mu (stabilizeFuel lam mu) c0
      (stabilizeFuel_enough lam mu c0 hl hm)
  · intro c1 h
    have h1 := stabilize_stable lam mu _ _ _ h
    have h2 := stabilize_ge lam mu _ _ _ h
    have h3 := stabilize_changed lam mu _ _ _ h
    refine ⟨not_le.mp h1, h2, h3, ?_⟩
    rw [mudanca]
    constructor
    · intro hflag
      by_cases hne : c1 ≠ c0
      · exact h3.mp hne
      · simp [hne] at hflag
    · intro hun
      rw [if_pos (h3.mpr hun)]

/-- Witness for C8 at the spec's scenario λ=50, μ=40, c0=1 (unstable start,
bumped to 2). -/
theorem C8_stabilization_witness :
    (∃ c1, stabilize 50 40 (stabilizeFuel 50 40) 1 = some c1) ∧
    ∀ c1, stabilize 50 40 (stabilizeFuel 50 40) 1 = some c1 →
      (50 : ℚ) < 40 * (c1 : ℚ) ∧ 1 ≤ c1 ∧
      (c1 ≠ 1 ↔ (40 : ℚ) * (1 : ℕ) ≤ 50) ∧
      (mudanca 1 c1 = Mudanca.instavel ↔ (40 : ℚ) * (1 : ℕ) ≤ 50) :=
  C8_stabilization 50 40 1 (by norm_num) (by norm_num)

/-! ### The `flag == 0` loops: invariants -/

theorem queue_outputs_tempo_medio (a d : ℚ) (c : ℕ) :
    (queue_outputs (MMcQueue.build a d c)).tempo_medio = waitTimeAt a d c := rfl

/-- If the metric already meets the threshold, the increase loop exits at once. -/
theorem flag0Inc_of_le (lam mu SLA : ℚ) (fuel c : ℕ) (metrica : ℚ) (vis : List ℕ)
    (h : ¬(SLA < metrica)) :
    flag0Inc lam mu SLA fuel c metrica vis = some (c, metrica, vis) := by
  cases fuel <;> simp [flag0Inc, h]

/-- Every capacity instantiated by the increase loop is stable, and so is the
capacity it returns. -/
theorem flag0Inc_inv (lam mu SLA : ℚ) :
    ∀ (fuel c : ℕ) (metrica : ℚ) (vis : List ℕ) (out : ℕ × ℚ × List ℕ),
      flag0Inc lam mu SLA fuel c metrica vis = some out →
      (∀ x ∈ vis, lam < mu * (x : ℚ)) → c ∈ vis → lam < mu * (c : ℚ) →
      (∀ x ∈ out.2.2, lam < mu * (x : ℚ)) ∧ out.1 ∈ out.2.2 ∧
        lam < mu * (out.1 : ℚ) := by
  intro fuel
  induction fuel with
  | zero =>
    intro c metrica vis out h hvis hmem hst
    by_cases hc : SLA < metrica
    · simp [flag0Inc, hc] at h
    · simp [flag0Inc, hc] at h
      subst h
      exact ⟨hvis, hmem, hst⟩
  | succ fuel ih =>
    intro c metrica vis out h hvis hmem hst
    by_cases hc : SLA < metrica
    · simp only [flag0Inc, if_pos hc] at h
      cases hmk : MMcQueue.make lam mu (c + 1) with
      | error e => rw [hmk] at h; exact absurd h (by simp)
      | ok q =>
        rw [hmk] at h
        obtain ⟨hs', _⟩ := (make_eq_ok_iff lam mu (c + 1) q).mp hmk
        have hst' : lam < mu * ((c + 1 : ℕ) : ℚ) := by rw [mul_comm]; exact hs'
        refine ih (c + 1) _ (vis ++ [c + 1]) out h ?_ ?_ hst'
        · intro x hx
          rcases List.mem_append.mp hx with h1 | h1
          · exact hvis x h1
          · rw [List.mem_singleton] at h1
            subst h1
            exact hst'
        · exact List.mem_append_right _ (List.mem_singleton.mpr rfl)
    · simp [flag0Inc, hc] at h
      subst h
      exact ⟨hvis, hmem, hst⟩

/-- Every capacity instantiated by the decrease loop is stable, and so is the
final capacity it leaves in place. -/
theorem flag0Dec_inv (lam mu SLA : ℚ) :
    ∀ (fuel c : ℕ) (metrica m2 : ℚ) (res2 : ℕ) (vis : List ℕ) (out : DecOut),
      flag0Dec lam mu SLA fuel c metrica m2 res2 vis = some out →
      (∀ x ∈ vis, lam < mu * (x : ℚ)) → c ∈ vis → lam < mu * (c : ℚ) →
      (∀ x ∈ out.visited, lam < mu * (x : ℚ)) ∧ out.cap ∈ out.visited ∧
        lam < mu * (out.cap : ℚ) := by
  intro fuel
  induction fuel with
  | zero =>
    intro c metrica m2 res2 vis out h hvis hmem hst
    by_cases hc : metrica ≤ SLA
    · simp [flag0Dec, hc] at h
    · simp [flag0Dec, hc] at h
      subst h
      exact ⟨hvis, hmem, hst⟩
  | succ fuel ih =>
    intro c metrica m2 res2 vis out h hvis hmem hst
    by_cases hc : metrica ≤ SLA
    · simp only [flag0Dec, if_pos hc] at h
      by_cases hg : mu * ((c - 1 : ℕ) : ℚ) ≤ lam
      · rw [if_pos hg] at h
        simp at h
        subst h
        exact ⟨hvis, hmem, hst⟩
      · rw [if_neg hg] at h
        cases hmk : MMcQueue.make lam mu (c - 1) with
        | error e => rw [hmk] at h; exact absurd h (by simp)
        | ok q =>
          rw [hmk] at h
          have hst' : lam < mu * ((c - 1 : ℕ) : ℚ) := not_le.mp hg
          refine ih (c - 1) _ _ _ (vis ++ [c - 1]) out h ?_ ?_ hst'
          · intro x hx
            rcases List.mem_append.mp hx with h1 | h1
            · exact hvis x h1
            · rw [List.mem_singleton] at h1
              subst h1
              exact hst'
          · exact List.mem_append_right _ (List.mem_singleton.mpr rfl)
    · simp [flag0Dec, hc] at h
      subst h
      exact ⟨hvis, hmem, hst⟩

/-- The decrease loop's `resultado` is always the bundle at the final
capacity, and its `resultado_2` is the bundle at the final capacity or one
above it. -/
theorem flag0Dec_caps (lam mu SLA : ℚ) (hl : 0 < lam) :
    ∀ (fuel c : ℕ) (metrica m2 : ℚ) (res2 : ℕ) (vis : List ℕ) (out : DecOut),
      flag0Dec lam mu SLA fuel c metrica m2 res2 vis = some out →
      (res2 = c ∨ res2 = c + 1) →
      out.resCap = out.cap ∧ (out.res2Cap = out.cap ∨ out.res2Cap = out.cap + 1) := by
  intro fuel
  induction fuel with
  | zero =>
    intro c metrica m2 res2 vis out h hres
    by_cases hc : metrica ≤ SLA
    · simp [flag0Dec, hc] at h
    · simp [flag0Dec, hc] at h
      subst h
      exact ⟨rfl, hres⟩
  | succ fuel ih =>
    intro c metrica m2 res2 vis out h hres
    by_cases hc : metrica ≤ SLA
    · simp only [flag0Dec, if_pos hc] at h
      by_cases hg : mu * ((c - 1 : ℕ) : ℚ) ≤ lam
      · rw [if_pos hg] at h
        simp at h
        subst h
        exact ⟨rfl, Or.inl rfl⟩
      · rw [if_neg hg] at h
        cases hmk : MMcQueue.make lam mu (c - 1) with
        | error e => rw [hmk] at h; exact absurd h (by simp)
        | ok q =>
          rw [hmk] at h
          have hc1 : 1 ≤ c - 1 := by
            have hst' : lam < mu * ((c - 1 : ℕ) : ℚ) := not_le.mp hg
            have : ((c - 1 : ℕ) : ℚ) ≠ 0 := by
              intro h0
              rw [h0, mul_zero] at hst'
              linarith
            have : (c - 1 : ℕ) ≠ 0 := by exact_mod_cast this
            omega
          refine ih (c - 1) _ _ _ (vis ++ [c - 1]) out h (Or.inr ?_)
          omega
    · simp [flag0Dec, hc] at h
      subst h
      exact ⟨rfl, hres⟩

/-- Behaviour of the `flag == 0` decrease loop when entered with the true
metric of a stable capacity: it either exits at once (metric above threshold),
or walks down and stops at the stability floor (final capacity still meets the
threshold) or at the first capacity whose wait time violates the threshold
(the capacity one above it meets it). -/
theorem flag0Dec_spec (lam mu SLA : ℚ) (hl : 0 < lam) (hm : 0 < mu) :
    ∀ (fuel c : ℕ) (metrica m2 : ℚ) (res2 : ℕ) (vis : List ℕ) (out : DecOut),
      flag0Dec lam mu SLA fuel c metrica m2 res2 vis = some out →
      lam < mu * (c : ℚ) → metrica = waitTimeAt lam mu c →
      (¬(metrica ≤ SLA) ∧ out.cap = c) ∨
      (metrica ≤ SLA ∧
        ((waitTimeAt lam mu out.cap ≤ SLA ∧ lam < mu * (out.cap : ℚ) ∧
            mu * ((out.cap - 1 : ℕ) : ℚ) ≤ lam) ∨
         (SLA < waitTimeAt lam mu out.cap ∧ lam < mu * (out.cap : ℚ) ∧
            lam < mu * ((out.cap + 1 : ℕ) : ℚ) ∧
            waitTimeAt lam mu (out.cap + 1) ≤ SLA))) := by
  intro fuel
  induction fuel with
  | zero =>
    intro c metrica m2 res2 vis out h hst hmet
    by_cases hc : metrica ≤ SLA
    · simp [flag0Dec, hc] at h
    · simp [flag0Dec, hc] at h
      subst h
      exact Or.inl ⟨hc, rfl⟩
  | succ fuel ih =>
    intro c metrica m2 res2 vis out h hst hmet
    by_cases hc : metrica ≤ SLA
    · simp only [flag0Dec, if_pos hc] at h
      by_cases hg : mu * ((c - 1 : ℕ) : ℚ) ≤ lam
      · rw [if_pos hg] at h
        simp at h
        subst h
        exact Or.inr ⟨hc, Or.inl ⟨hmet ▸ hc, hst, hg⟩⟩
      · rw [if_neg hg] at h
        cases hmk : MMcQueue.make lam mu (c - 1) with
        | error e => rw [hmk] at h; exact absurd h (by simp)
        | ok q =>
          rw [hmk] at h
          obtain ⟨_, rfl⟩ := (make_eq_ok_iff lam mu (c - 1) q).mp hmk
          have hst' : lam < mu * ((c - 1 : ℕ) : ℚ) := not_le.mp hg
          have hc1 : 1 ≤ c := by
            have := cap_pos_of_stable lam mu c hl hst
            omega
          have hrec := ih (c - 1) _ _ _ (vis ++ [c - 1]) out h hst'
            (queue_outputs_tempo_medio lam mu (c - 1))
          rcases hrec with ⟨hviol, hcap⟩ | ⟨_, hgood⟩
          · refine Or.inr ⟨hc, Or.inr ?_⟩
            have hcap1 : out.cap + 1 = c := by omega
            refine ⟨?_, ?_, ?_, ?_⟩
            · rw [hcap]
              exact not_le.mp (by rw [← queue_outputs_tempo_medio lam mu (c - 1)]; exact hviol)
            · rw [hcap]; exact hst'
            · rw [hcap1]; exact hst
            · rw [hcap1, ← hmet]; exact hc
          · exact Or.inr ⟨hc, hgood⟩
    · simp [flag0Dec, hc] at h
      subst h
      exact Or.inl ⟨hc, rfl⟩

/-- All capacities instantiated by the full `flag == 0` search are stable,
the final capacity is among them, and it is stable. -/
theorem flag0Search_inv (lam mu SLA : ℚ) (fuel c0 : ℕ) (out : SearchResult)
    (hl : 0 < lam) (hm : 0 < mu)
    (h : flag0Search lam mu SLA fuel c0 = some out) :
    (∀ x ∈ out.visited, lam < mu * (x : ℚ)) ∧ out.cap ∈ out.visited ∧
      lam < mu * (out.cap : ℚ) := by
  unfold flag0Search at h
  cases hstab : stabilize lam mu fuel c0 with
  | none => rw [hstab] at h; exact absurd h (by simp)
  | some c1 =>
    rw [hstab] at h
    dsimp only at h
    have hst1 : lam < mu * (c1 : ℚ) :=
      not_le.mp (stabilize_stable lam mu fuel c0 c1 hstab)
    cases hmk : MMcQueue.make lam mu c1 with
    | error e => rw [hmk] at h; exact absurd h (by simp)
    | ok q =>
      rw [hmk] at h
      dsimp only at h
      cases hinc : flag0Inc lam mu SLA fuel c1 (queue_outputs q).tempo_medio [c1] with
      | none => rw [hinc] at h; exact absurd h (by simp)
      | some p =>
        rw [hinc] at h
        dsimp only at h
        obtain ⟨c2, m2, vis⟩ := p
        have hi := flag0Inc_inv lam mu SLA fuel c1 _ [c1] (c2, m2, vis) hinc
          (by intro x hx; rw [List.mem_singleton] at hx; subst hx; exact hst1)
          (List.mem_singleton.mpr rfl) hst1
        cases hdec : flag0Dec lam mu SLA fuel c2 m2 m2 c2 vis with
        | none => rw [hdec] at h; exact absurd h (by simp)
        | some r =>
          rw [hdec] at h
          simp only [Option.some.injEq] at h
          have hd := flag0Dec_inv lam mu SLA fuel c2 m2 m2 c2 vis r hdec
            hi.1 hi.2.1 hi.2.2
          subst h
          exact hd

/-! ### Claim C6: the mean-wait SLA search -/

/-- C6 (amended): when the stabilized starting capacity already meets the
mean-wait threshold, the `flag == 0` search returns either the minimal stable
capacity (whose wait time meets the threshold — the decrease phase was stopped
by the stability guard), or the first capacity whose wait time *violates* the
threshold — one below the smallest stable capacity meeting it.  In the second
case the returned capacity does not satisfy the SLA. -/
theorem C6_meanwait_search (lam mu SLA : ℚ) (fuel c0 : ℕ) (out : SearchResult)
    (hl : 0 < lam) (hm : 0 < mu) (hs : lam < mu * (c0 : ℚ))
    (hsat : waitTimeAt lam mu c0 ≤ SLA)
    (hrun : flag0Search lam mu SLA fuel c0 = some out) :
    (waitTimeAt lam mu out.cap ≤ SLA ∧
        ∀ c' : ℕ, lam < mu * (c' : ℚ) → out.cap ≤ c') ∨
    (SLA < waitTimeAt lam mu out.cap ∧ lam < mu * ((out.cap + 1 : ℕ) : ℚ) ∧
      waitTimeAt lam mu (out.cap + 1) ≤ SLA ∧
      ∀ c' : ℕ, lam < mu * (c' : ℚ) → waitTimeAt lam mu c' ≤ SLA → out.cap < c') := by
  unfold flag0Search at hrun
  rw [stabilize_of_stable lam mu c0 (not_le.mpr hs) fuel] at hrun
  dsimp only at hrun
  have hmk : MMcQueue.make lam mu c0 = Except.ok (MMcQueue.build lam mu c0) :=
    (make_eq_ok_iff lam mu c0 _).mpr ⟨by nlinarith, rfl⟩
  rw [hmk] at hrun
  dsimp only at hrun
  rw [flag0Inc_of_le lam mu SLA fuel c0 _ [c0]
    (not_lt.mpr (by rw [queue_outputs_tempo_medio]; exact hsat))] at hrun
  dsimp only at hrun
  cases hdec : flag0Dec lam mu SLA fuel c0
      (queue_outputs (MMcQueue.build lam mu c0)).tempo_medio
      (queue_outputs (MMcQueue.build lam mu c0)).tempo_medio c0 [c0] with
  | none => rw [hdec] at hrun; exact absurd hrun (by simp)
  | some r =>
    rw [hdec] at hrun
    simp only [Option.some.injEq] at hrun
    have hspec := flag0Dec_spec lam mu SLA hl hm fuel c0 _ _ c0 [c0] r hdec hs
      (queue_outputs_tempo_medio lam mu c0)
    subst hrun
    dsimp only
    rcases hspec with ⟨hviol, _⟩ | ⟨_, hgood⟩
    · exact absurd (by rw [queue_outputs_tempo_medio]; exact hsat) hviol
    · rcases hgood with ⟨hw, hstcap, hfloor⟩ | ⟨hv, hstc, hstc1, hw1⟩
      · left
        refine ⟨hw, ?_⟩
        intro c' hst'
        by_contra hyp
        push_neg at hyp
        have hcap1 : 1 ≤ r.cap := cap_pos_of_stable lam mu r.cap hl hstcap
        have hle : c' ≤ r.cap - 1 := by omega
        have hcast : ((c' : ℕ) : ℚ) ≤ (((r.cap - 1 : ℕ)) : ℚ) := by
          exact_mod_cast hle
        have : mu * (c' : ℚ) ≤ mu * ((r.cap - 1 : ℕ) : ℚ) :=
          mul_le_mul_of_nonneg_left hcast hm.le
        linarith
      · right
        refine ⟨hv, hstc1, hw1, ?_⟩
        intro c' hst' hw'
        by_contra hyp
        push_neg at hyp
        have := waitTime_antitone lam mu c' r.cap hl hm hst' hyp
        linarith

/-- Counterexample to C6 as stated: at λ=1/2, μ=1, SLA=1/10, starting capacity
2 (stable, and already meeting the threshold: wait = 1/15 ≤ 1/10), the search
returns capacity 1, whose wait time 1 violates the SLA — even though capacity
2 is a stable capacity meeting the threshold. -/
theorem C6_counterexample :
    flag0Search (1/2) 1 (1/10) 10 2 = some ⟨1, 2, [2, 1]⟩ ∧
    (1 : ℚ) / 2 < 1 * ((2 : ℕ) : ℚ) ∧
    waitTimeAt (1/2) 1 2 ≤ 1/10 ∧
    (1 : ℚ) / 10 < waitTimeAt (1/2) 1 1 := by
  refine ⟨by with_unfolding_all rfl, by norm_num,
    of_decide_eq_true (by with_unfolding_all rfl),
    of_decide_eq_true (by with_unfolding_all rfl)⟩

/-- Witness for the amended C6 at the counterexample input. -/
theorem C6_meanwait_search_witness :
    (waitTimeAt (1/2) 1 (SearchResult.mk 1 2 [2, 1]).cap ≤ 1/10 ∧
      ∀ c' : ℕ, (1 : ℚ) / 2 < 1 * (c' : ℚ) → (SearchResult.mk 1 2 [2, 1]).cap ≤ c') ∨
    ((1 : ℚ) / 10 < waitTimeAt (1/2) 1 (SearchResult.mk 1 2 [2, 1]).cap ∧
      (1 : ℚ) / 2 < 1 * (((SearchResult.mk 1 2 [2, 1]).cap + 1 : ℕ) : ℚ) ∧
      waitTimeAt (1/2) 1 ((SearchResult.mk 1 2 [2, 1]).cap + 1) ≤ 1/10 ∧
      ∀ c' : ℕ, (1 : ℚ) / 2 < 1 * (c' : ℚ) → waitTimeAt (1/2) 1 c' ≤ 1/10 →
        (SearchResult.mk 1 2 [2, 1]).cap < c') :=
  C6_meanwait_search (1/2) 1 (1/10) 10 2 (SearchResult.mk 1 2 [2, 1])
    (by norm_num) (by norm_num) (by norm_num)
    (of_decide_eq_true (by with_unfolding_all rfl))
    (by with_unfolding_all rfl)

/-! ### Claim C9: which bundle is reported at which capacity -/

/-- C9 (amended): the metrics bundle selected by the `flag == 0` backoff
comparison is computed either at the reported capacity, or at the reported
capacity plus one (when the comparison selects the higher-capacity
candidate `resultado_2`). -/
theorem C9_bundle_capacity (lam mu SLA : ℚ) (fuel c0 : ℕ) (out : SearchResult)
    (hl : 0 < lam)
    (hrun : flag0Search lam mu SLA fuel c0 = some out) :
    out.chosenCap = out.cap ∨ out.chosenCap = out.cap + 1 := by
  unfold flag0Search at hrun
  cases hstab : stabilize lam mu fuel c0 with
  | none => rw [hstab] at hrun; exact absurd hrun (by simp)
  | some c1 =>
    rw [hstab] at hrun
    dsimp only at hrun
    cases hmk : MMcQueue.make lam mu c1 with
    | error e => rw [hmk] at hrun; exact absurd hrun (by simp)
    | ok q =>
      rw [hmk] at hrun
      dsimp only at hrun
      cases hinc : flag0Inc lam mu SLA fuel c1 (queue_outputs q).tempo_medio [c1] with
      | none => rw [hinc] at hrun; exact absurd hrun (by simp)
      | some p =>
        rw [hinc] at hrun
        dsimp only at hrun
        obtain ⟨c2, m2, vis⟩ := p
        cases hdec : flag0Dec lam mu SLA fuel c2 m2 m2 c2 vis with
        | none => rw [hdec] at hrun; exact absurd hrun (by simp)
        | some r =>
          rw [hdec] at hrun
          simp only [Option.some.injEq] at hrun
          obtain ⟨h1, h2⟩ := flag0Dec_caps lam mu SLA hl fuel c2 m2 m2 c2 vis r hdec
            (Or.inl rfl)
          subst hrun
          by_cases hd : |r.metrica - SLA| ≤ |r.metrica2 - SLA|
          · left
            show (if |r.metrica - SLA| ≤ |r.metrica2 - SLA| then r.resCap else r.res2Cap)
              = r.cap
            rw [if_pos hd]
            exact h1
          · rcases h2 with h2 | h2
            · left
              show (if |r.metrica - SLA| ≤ |r.metrica2 - SLA| then r.resCap else r.res2Cap)
                = r.cap
              rw [if_neg hd]
              exact h2
            · right
              show (if |r.metrica - SLA| ≤ |r.metrica2 - SLA| then r.resCap else r.res2Cap)
                = r.cap + 1
              rw [if_neg hd]
              exact h2

/-- Counterexample to C9 as stated: at λ=1/2, μ=1, SLA=1/10, c0=2 the search
reports capacity 1 while the selected metrics bundle is the one computed at
capacity 2, and the two bundles differ. -/
theorem C9_counterexample :
    flag0Search (1/2) 1 (1/10) 10 2 = some ⟨1, 2, [2, 1]⟩ ∧
    queue_outputs (MMcQueue.build (1/2) 1 2) ≠ queue_outputs (MMcQueue.build (1/2) 1 1) := by
  refine ⟨by with_unfolding_all rfl, of_decide_eq_true (by with_unfolding_all rfl)⟩

/-- Witness for the amended C9 at the counterexample input (the bundle comes
from capacity `cap + 1`). -/
theorem C9_bundle_capacity_witness :
    (SearchResult.mk 1 2 [2, 1]).chosenCap = (SearchResult.mk 1 2 [2, 1]).cap ∨
    (SearchResult.mk 1 2 [2, 1]).chosenCap = (SearchResult.mk 1 2 [2, 1]).cap + 1 :=
  C9_bundle_capacity (1/2) 1 (1/10) 10 2 (SearchResult.mk 1 2 [2, 1])
    (by norm_num) (by with_unfolding_all rfl)

/-! ### The `flag == 2` loops: invariants -/

theorem flag2Inc_inv (lam mu : ℚ) (SLA_PER SLA_TEMPO_MAX : ℝ) :
    ∀ (fuel c : ℕ) (metrica : ℝ) (vis : List ℕ) (out : ℕ × ℝ × List ℕ),
      flag2Inc lam mu SLA_PER SLA_TEMPO_MAX fuel c metrica vis = some out →
      (∀ x ∈ vis, lam < mu * (x : ℚ)) → c ∈ vis → lam < mu * (c : ℚ) →
      (∀ x ∈ out.2.2, lam < mu * (x : ℚ)) ∧ out.1 ∈ out.2.2 ∧
        lam < mu * (out.1 : ℚ) := by
  intro fuel
  induction fuel with
  | zero =>
    intro c metrica vis out h hvis hmem hst
    by_cases hc : metrica < SLA_PER
    · simp [flag2Inc, hc] at h
    · simp [flag2Inc, hc] at h
      subst h
      exact ⟨hvis, hmem, hst⟩
  | succ fuel ih =>
    intro c metrica vis out h hvis hmem hst
    by_cases hc : metrica < SLA_PER
    · simp only [flag2Inc, if_pos hc] at h
      cases hmk : MMcQueue.make lam mu (c + 1) with
      | error e => rw [hmk] at h; exact absurd h (by simp)
      | ok q =>
        rw [hmk] at h
        obtain ⟨hs', _⟩ := (make_eq_ok_iff lam mu (c + 1) q).mp hmk
        have hst' : lam < mu * ((c + 1 : ℕ) : ℚ) := by rw [mul_comm]; exact hs'
        refine ih (c + 1) _ (vis ++ [c + 1]) out h ?_ ?_ hst'
        · intro x hx
          rcases List.mem_append.mp hx with h1 | h1
          · exact hvis x h1
          · rw [List.mem_singleton] at h1
            subst h1
            exact hst'
        · exact List.mem_append_right _ (List.mem_singleton.mpr rfl)
    · simp [flag2Inc, hc] at h
      subst h
      exact ⟨hvis, hmem, hst⟩

theorem flag2Dec_inv (lam mu : ℚ) (SLA_PER : ℝ) :
    ∀ (fuel c : ℕ) (metrica m2 : ℝ) (res2 : ℕ) (vis : List ℕ) (out : DecOutR),
      flag2Dec lam mu SLA_PER fuel c metrica m2 res2 vis = some out →
      (∀ x ∈ vis, lam < mu * (x : ℚ)) → c ∈ vis → lam < mu * (c : ℚ) →
      (∀ x ∈ out.visited, lam < mu * (x : ℚ)) ∧ out.cap ∈ out.visited ∧
        lam < mu * (out.cap : ℚ) := by
  intro fuel
  induction fuel with
  | zero =>
    intro c metrica m2 res2 vis out h hvis hmem hst
    by_cases hc : SLA_PER ≤ metrica
    · simp [flag2Dec, hc] at h
    · simp [flag2Dec, hc] at h
      subst h
      exact ⟨hvis, hmem, hst⟩
  | succ fuel ih =>
    intro c metrica m2 res2 vis out h hvis hmem hst
    by_cases hc : SLA_PER ≤ metrica
    · simp only [flag2Dec, if_pos hc] at h
      by_cases hg : mu * ((c - 1 : ℕ) : ℚ) ≤ lam
      · rw [if_pos hg] at h
        simp at h
        subst h
        exact ⟨hvis, hmem, hst⟩
      · rw [if_neg hg] at h
        cases hmk : MMcQueue.make lam mu (c - 1) with
        | error e => rw [hmk] at h; exact absurd h (by simp)
        | ok q =>
          rw [hmk] at h
          have hst' : lam < mu * ((c - 1 : ℕ) : ℚ) := not_le.mp hg
          refine ih (c - 1) _ _ _ (vis ++ [c - 1]) out h ?_ ?_ hst'
          · intro x hx
            rcases List.mem_append.mp hx with h1 | h1
            · exact hvis x h1
            · rw [List.mem_singleton] at h1
              subst h1
              exact hst'
          · exact List.mem_append_right _ (List.mem_singleton.mpr rfl)
    · simp [flag2Dec, hc] at h
      subst h
      exact ⟨hvis, hmem, hst⟩

theorem flag2Search_inv (lam mu : ℚ) (SLA_PER SLA_TEMPO_MEDIO SLA_TEMPO_MAX : ℝ)
    (fuel c0 : ℕ) (out : SearchResult) (hl : 0 < lam) (hm : 0 < mu)
    (h : flag2Search lam mu SLA_PER SLA_TEMPO_MEDIO SLA_TEMPO_MAX fuel c0 = some out) :
    (∀ x ∈ out.visited, lam < mu * (x : ℚ)) ∧ out.cap ∈ out.visited ∧
      lam < mu * (out.cap : ℚ) := by
  unfold flag2Search at h
  cases hstab : stabilize lam mu fuel c0 with
  | none => rw [hstab] at h; exact absurd h (by simp)
  | some c1 =>
    rw [hstab] at h
    dsimp only at h
    have hst1 : lam < mu * (c1 : ℚ) :=
      not_le.mp (stabilize_stable lam mu fuel c0 c1 hstab)
    cases hmk : MMcQueue.make lam mu c1 with
    | error e => rw [hmk] at h; exact absurd h (by simp)
    | ok q =>
      rw [hmk] at h
      dsimp only at h
      cases hinc : flag2Inc lam mu SLA_PER SLA_TEMPO_MAX fuel c1
          (prob_pessoas_MAX q SLA_TEMPO_MAX) [c1] with
      | none => rw [hinc] at h; exact absurd h (by simp)
      | some p =>
        rw [hinc] at h
        dsimp only at h
        obtain ⟨c2, m2, vis⟩ := p
        have hi := flag2Inc_inv lam mu SLA_PER SLA_TEMPO_MAX fuel c1 _ [c1]
          (c2, m2, vis) hinc
          (by intro x hx; rw [List.mem_singleton] at hx; subst hx; exact hst1)
          (List.mem_singleton.mpr rfl) hst1
        cases hdec : flag2Dec lam mu SLA_PER fuel c2 m2 m2 c2 vis with
        | none => rw [hdec] at h; exact absurd h (by simp)
        | some r =>
          rw [hdec] at h
          simp only [Option.some.injEq] at h
          have hd := flag2Dec_inv lam mu SLA_PER fuel c2 m2 m2 c2 vis r hdec
            hi.1 hi.2.1 hi.2.2
          subst h
          exact hd

/-! ### Claim C5: the searches only instantiate stable capacities -/

/-- C5: in both the `flag == 0` mean-wait search and the `flag == 2`
percentage search, every capacity at which `MMcQueue` is instantiated (the
`visited` trace records exactly the capacities passed to the constructor) is
stable, and the final capacity placed in the result is one of them and is
stable.  The decrement guard reverts an unstable trial capacity before any
construction is attempted there. -/
theorem C5_search_stability (lam mu SLA : ℚ)
    (SLA_PER SLA_TEMPO_MEDIO SLA_TEMPO_MAX : ℝ) (fuel c0 : ℕ)
    (hl : 0 < lam) (hm : 0 < mu) :
    (∀ out, flag0Search lam mu SLA fuel c0 = some out →
      (∀ x ∈ out.visited, lam < mu * (x : ℚ)) ∧ out.cap ∈ out.visited ∧
        lam < mu * (out.cap : ℚ)) ∧
    (∀ out, flag2Search lam mu SLA_PER SLA_TEMPO_MEDIO SLA_TEMPO_MAX fuel c0 = some out →
      (∀ x ∈ out.visited, lam < mu * (x : ℚ)) ∧ out.cap ∈ out.visited ∧
        lam < mu * (out.cap : ℚ)) :=
  ⟨fun out h => flag0Search_inv lam mu SLA fuel c0 out hl hm h,
   fun out h => flag2Search_inv lam mu SLA_PER SLA_TEMPO_MEDIO SLA_TEMPO_MAX
     fuel c0 out hl hm h⟩

/-- Witness for C5 on the concrete `flag == 0` run at λ=1/2, μ=1, SLA=1/10,
c0=2: both visited capacities and the returned capacity are stable. -/
theorem C5_search_stability_witness :
    (∀ x ∈ (SearchResult.mk 1 2 [2, 1]).visited, (1 : ℚ) / 2 < 1 * (x : ℚ)) ∧
    (SearchResult.mk 1 2 [2, 1]).cap ∈ (SearchResult.mk 1 2 [2, 1]).visited ∧
    (1 : ℚ) / 2 < 1 * (((SearchResult.mk 1 2 [2, 1]).cap : ℕ) : ℚ) :=
  (C5_search_stability (1/2) 1 (1/10) 0 0 0 10 2 (by norm_num) (by norm_num)).1
    (SearchResult.mk 1 2 [2, 1]) (by with_unfolding_all rfl)

/-! ### Claim C7: the metric used by the `flag == 2` decrease loop -/

theorem one_sub_mul_exp_ge (k t : ℝ) (hk : 0 ≤ k) (hk' : k ≤ 1/10) (ht : t ≤ 0) :
    (9/10 : ℝ) ≤ 1 - k * Real.exp t := by
  have h1 : Real.exp t ≤ 1 := Real.exp_le_one_iff.mpr ht
  have h0 : (0 : ℝ) < Real.exp t := Real.exp_pos t
  nlinarith

theorem one_sub_mul_exp_lt (k t : ℝ) (hk : (1 : ℝ)/10 < k * (1 + t)) (hk0 : 0 ≤ k) :
    1 - k * Real.exp t < 9/10 := by
  have h1 : 1 + t ≤ Real.exp t := by
    have := Real.add_one_le_exp t
    linarith
  have h2 : k * (1 + t) ≤ k * Real.exp t := mul_le_mul_of_nonneg_left h1 hk0
  linarith

theorem flag2Inc_of_ge (lam mu : ℚ) (SLA_PER SLA_TEMPO_MAX : ℝ) (fuel c : ℕ)
    (metrica : ℝ) (vis : List ℕ) (h : ¬(metrica < SLA_PER)) :
    flag2Inc lam mu SLA_PER SLA_TEMPO_MAX fuel c metrica vis
      = some (c, metrica, vis) := by
  cases fuel <;> simp [flag2Inc, h]

theorem flag2Dec_break (lam mu : ℚ) (SLA_PER : ℝ) (fuel c : ℕ)
    (metrica m2 : ℝ) (res2 : ℕ) (vis : List ℕ)
    (h1 : SLA_PER ≤ metrica) (h2 : mu * ((c - 1 : ℕ) : ℚ) ≤ lam) :
    flag2Dec lam mu SLA_PER (fuel + 1) c metrica m2 res2 vis
      = some ⟨c, c, metrica, metrica, c, vis⟩ := by
  simp only [flag2Dec, if_pos h1, if_pos h2]

theorem flag2Dec_step (lam mu : ℚ) (SLA_PER : ℝ) (fuel c : ℕ)
    (metrica m2 : ℝ) (res2 : ℕ) (vis : List ℕ) (q : MMcQueue)
    (h1 : SLA_PER ≤ metrica) (h2 : ¬(mu * ((c - 1 : ℕ) : ℚ) ≤ lam))
    (h3 : MMcQueue.make lam mu (c - 1) = Except.ok q) :
    flag2Dec lam mu SLA_PER (fuel + 1) c metrica m2 res2 vis
      = flag2Dec lam mu SLA_PER fuel (c - 1)
          (((queue_outputs q).tempo_medio_asterisco : ℚ) : ℝ) metrica c
          (vis ++ [c - 1]) := by
  simp only [flag2Dec, if_pos h1, if_neg h2, h3]

theorem flag2Dec_exit (lam mu : ℚ) (SLA_PER : ℝ) (fuel c : ℕ)
    (metrica m2 : ℝ) (res2 : ℕ) (vis : List ℕ) (h : ¬(SLA_PER ≤ metrica)) :
    flag2Dec lam mu SLA_PER fuel c metrica m2 res2 vis
      = some ⟨c, c, metrica, m2, res2, vis⟩ := by
  cases fuel <;> simp [flag2Dec, h]

theorem c7_pc3 : (MMcQueue.build (3/5) 1 3)._pc = 36/1825 := by
  with_unfolding_all rfl

theorem c7_rou3 : (MMcQueue.build (3/5) 1 3)._rou = 1/5 := by
  with_unfolding_all rfl

theorem c7_pc2 : (MMcQueue.build (3/5) 1 2)._pc = 63/650 := by
  with_unfolding_all rfl

theorem c7_rou2 : (MMcQueue.build (3/5) 1 2)._rou = 3/10 := by
  with_unfolding_all rfl

theorem c7_tma2 : (queue_outputs (MMcQueue.build (3/5) 1 2)).tempo_medio_asterisco
    = 50/21 := by
  with_unfolding_all rfl

theorem c7_tma1 : (queue_outputs (MMcQueue.build (3/5) 1 1)).tempo_medio_asterisco
    = 25/6 := by
  with_unfolding_all rfl

/-- At λ=3/5, μ=1, T=1/10 the percentage served within T at capacity 3 is at
least 90%. -/
theorem c7_per3_ge : (9/10 : ℝ) ≤ prob_pessoas_MAX (MMcQueue.build (3/5) 1 3) (1/10) := by
  rw [prob_pessoas_MAX, MMcQueue.getPorbWhenQueueTimeLargerThan, c7_pc3, c7_rou3,
    build_capacity, build_departure]
  apply one_sub_mul_exp_ge
  · push_cast
    norm_num
  · push_cast
    norm_num
  · push_cast
    norm_num

/-- At λ=3/5, μ=1, T=1/10 the percentage served within T at capacity 2 is
strictly below 90% (using `exp x ≥ 1 + x`). -/
theorem c7_per2_lt : prob_pessoas_MAX (MMcQueue.build (3/5) 1 2) (1/10) < 9/10 := by
  rw [prob_pessoas_MAX, MMcQueue.getPorbWhenQueueTimeLargerThan, c7_pc2, c7_rou2,
    build_capacity, build_departure]
  apply one_sub_mul_exp_lt
  · push_cast
    norm_num
  · push_cast
    norm_num

/-- C7 (the copy-paste defect in the percentage-served search): at λ=3/5,
μ=1 (TMA = 3600 s), target percentage 90%, maximum wait 1/10 h (360 s), mean
wait SLA 1/20 h, starting capacity 3:
the percentage served within the maximum wait is ≥ 90% at capacity 3 but
**below 90% at capacity 2**, so a decrease phase driven by the percentage
metric would stop at capacity 2.  The source's decrease loop instead refreshes
`metrica` from `resultado[1]` — the conditional wait time, which stays far
above the 0.9 *percentage* target (50/21 at capacity 2, 25/6 at capacity 1) —
so the search walks past capacity 2 all the way down to the stability floor
and returns capacity 1.  Hence the claim that every decrease-phase iteration
compares the percentage metric against the target is false of the code. -/
theorem C7_flag2_wrong_metric :
    flag2Search (3/5) 1 (9/10) (1/20) (1/10) 10 3
      = some (SearchResult.mk 1 1 [3, 2, 1]) ∧
    (9/10 : ℝ) ≤ prob_pessoas_MAX (MMcQueue.build (3/5) 1 3) (1/10) ∧
    prob_pessoas_MAX (MMcQueue.build (3/5) 1 2) (1/10) < 9/10 ∧
    (9/10 : ℝ) ≤ (((queue_outputs (MMcQueue.build (3/5) 1 2)).tempo_medio_asterisco : ℚ) : ℝ) := by
  have hmk3 : MMcQueue.make (3/5) 1 3 = Except.ok (MMcQueue.build (3/5) 1 3) :=
    (make_eq_ok_iff (3/5) 1 3 _).mpr ⟨by norm_num, rfl⟩
  have hmk2 : MMcQueue.make (3/5) 1 2 = Except.ok (MMcQueue.build (3/5) 1 2) :=
    (make_eq_ok_iff (3/5) 1 2 _).mpr ⟨by norm_num, rfl⟩
  have hmk1 : MMcQueue.make (3/5) 1 1 = Except.ok (MMcQueue.build (3/5) 1 1) :=
    (make_eq_ok_iff (3/5) 1 1 _).mpr ⟨by norm_num, rfl⟩
  have h50 : (9/10 : ℝ) ≤ ((50/21 : ℚ) : ℝ) := by
    push_cast
    norm_num
  have h25 : (9/10 : ℝ) ≤ ((25/6 : ℚ) : ℝ) := by
    push_cast
    norm_num
  have step1 : flag2Dec (3/5) 1 (9/10) 10 3
      (prob_pessoas_MAX (MMcQueue.build (3/5) 1 3) (1/10))
      (prob_pessoas_MAX (MMcQueue.build (3/5) 1 3) (1/10)) 3 [3]
      = flag2Dec (3/5) 1 (9/10) 9 2 ((50/21 : ℚ) : ℝ)
          (prob_pessoas_MAX (MMcQueue.build (3/5) 1 3) (1/10)) 3 [3, 2] := by
    have h := flag2Dec_step (3/5) 1 (9/10) 9 3
      (prob_pessoas_MAX (MMcQueue.build (3/5) 1 3) (1/10))
      (prob_pessoas_MAX (MMcQueue.build (3/5) 1 3) (1/10)) 3 [3]
      (MMcQueue.build (3/5) 1 2) c7_per3_ge (by norm_num) hmk2
    rw [c7_tma2] at h
    exact h
  have step2 : flag2Dec (3/5) 1 (9/10) 9 2 ((50/21 : ℚ) : ℝ)
      (prob_pessoas_MAX (MMcQueue.build (3/5) 1 3) (1/10)) 3 [3, 2]
      = flag2Dec (3/5) 1 (9/10) 8 1 ((25/6 : ℚ) : ℝ) ((50/21 : ℚ) : ℝ) 2 [3, 2, 1] := by
    have h := flag2Dec_step (3/5) 1 (9/10) 8 2 ((50/21 : ℚ) : ℝ)
      (prob_pessoas_MAX (MMcQueue.build (3/5) 1 3) (1/10)) 3 [3, 2]
      (MMcQueue.build (3/5) 1 1) h50 (by norm_num) hmk1
    rw [c7_tma1] at h
    exact h
  have step3 : flag2Dec (3/5) 1 (9/10) 8 1 ((25/6 : ℚ) : ℝ) ((50/21 : ℚ) : ℝ) 2 [3, 2, 1]
      = some ⟨1, 1, ((25/6 : ℚ) : ℝ), ((25/6 : ℚ) : ℝ), 1, [3, 2, 1]⟩ :=
    flag2Dec_break (3/5) 1 (9/10) 7 1 ((25/6 : ℚ) : ℝ) ((50/21 : ℚ) : ℝ) 2 [3, 2, 1]
      h25 (by norm_num)
  refine ⟨?_, c7_per3_ge, c7_per2_lt, ?_⟩
  · unfold flag2Search
    rw [stabilize_of_stable (3/5) 1 3 (by norm_num) 10]
    dsimp only
    rw [hmk3]
    dsimp only
    rw [flag2Inc_of_ge (3/5) 1 (9/10) (1/10) 10 3
      (prob_pessoas_MAX (MMcQueue.build (3/5) 1 3) (1/10)) [3]
      (not_lt.mpr c7_per3_ge)]
    dsimp only
    rw [step1, step2, step3]
    dsimp only
    simp
  · rw [c7_tma2]
    exact h50
